import Mathlib

/-!
# Round-robin load balancer (`main.go`)

A shallow embedding of the balancer of `main.go`: the `Server` records with
their liveness flag, the `LoadBalancer` with its pool and cursor, the selector
`NextServer`, the request rewriting `director` and the entry point `ServeHTTP`.

Conventions of the embedding.

* Go's `int` is the 64-bit two's-complement integer: values are `Int`, the sum
  `lb.current + 1` is wrapped by `wrapInt`, and `%` is the truncated remainder.
* A `*Server` is an address into a heap of `Server` objects; a pointer that
  addresses no object behaves as `nil` (dereferencing it panics).
* A run-time panic and `log.Fatal` end the computation: every operation returns
  in `Except Abort`.
* The two locks (`Server.mux`, `LoadBalancer.mutex`) make each method body one
  atomic step; the embedding executes the bodies one after the other and keeps
  no lock state. Log output is not part of the state.
-/

namespace Balancer

/-! ## Machine integers and aborts -/

/-- The ways a computation ends without returning. -/
inductive Abort where
  | indexOutOfRange
  | nilDereference
  | divideByZero
  | logFatal
  deriving DecidableEq, Repr

deriving instance DecidableEq for Except

/-- Largest value of Go's `int` (64 bits). -/
def maxInt : Int := 9223372036854775807

/-- Smallest value of Go's `int` (64 bits). -/
def minInt : Int := -9223372036854775808

/-- Two's-complement wrap-around of an integer result into the range of `int`. -/
def wrapInt (x : Int) : Int := (x + 9223372036854775808) % 18446744073709551616 - 9223372036854775808

/-- Go's `a % b` on `int`: the remainder truncated towards zero (it has the sign
of `a`); a zero divisor is a run-time panic. -/
def goRem (a b : Int) : Except Abort Int :=
  if b = 0 then Except.error Abort.divideByZero else Except.ok (Int.tmod a b)

/-- Slice indexing `xs[i]` with Go's bounds check. -/
def index {α : Type} (xs : List α) (i : Int) : Except Abort α :=
  if 0 ≤ i then
    match xs[i.toNat]? with
    | some x => Except.ok x
    | none => Except.error Abort.indexOutOfRange
  else Except.error Abort.indexOutOfRange

/-! ## Data model -/

/-- The fields of `url.URL` that the balancer reads or writes, and those of the
request target that it must leave alone. -/
structure URL where
  Scheme : String
  Host : String
  Path : String
  RawQuery : String
  deriving DecidableEq, Repr

/-- The struct `type Server struct { URL *url.URL; Alive bool; mux sync.RWMutex }`. -/
structure Server where
  URL : URL
  Alive : Bool
  deriving DecidableEq, Repr

/-- A `*Server`: the address of a `Server` object in the heap. -/
abbrev Ptr := Nat

/-- The allocated `Server` objects, by address. -/
abbrev Heap := List Server

/-- The struct `type LoadBalancer struct { servers []*Server; proxy; current int; mutex }`.
The proxy's only configuration is its `Director`, which `NewLoadBalancer` sets to
`lb.director` once and for all. -/
structure LoadBalancer where
  servers : List Ptr
  current : Int
  deriving DecidableEq, Repr

/-- The whole mutable state of the program: the `Server` objects and the balancer. -/
structure World where
  heap : Heap
  lb : LoadBalancer
  deriving DecidableEq, Repr

/-! ## `Server` accessors -/

/-- Method `func (s *Server) SetAlive(alive bool)`: overwrite the flag of the object at `s`. -/
def Server.SetAlive (h : Heap) (s : Ptr) (alive : Bool) : Except Abort Heap :=
  match h[s]? with
  | some srv => Except.ok (h.set s { srv with Alive := alive })
  | none => Except.error Abort.nilDereference

/-- Method `func (s *Server) IsAlive() bool`: read the flag of the object at `s`. -/
def Server.IsAlive (h : Heap) (s : Ptr) : Except Abort Bool :=
  match h[s]? with
  | some srv => Except.ok srv.Alive
  | none => Except.error Abort.nilDereference

/-! ## Construction -/

/-- The `for _, serverURL := range serverURLs` loop of `NewLoadBalancer`: parse the
address (`log.Fatal` on failure), allocate a `Server` that is alive and append its
address to the pool. `parse` stands for the library function `url.Parse`. -/
def NewLoadBalancer.loop (parse : String → Option URL) :
    List String → Heap → List Ptr → Except Abort (Heap × List Ptr)
  | [], h, servers => Except.ok (h, servers)
  | serverURL :: rest, h, servers =>
    match parse serverURL with
    | none => Except.error Abort.logFatal
    | some url =>
      NewLoadBalancer.loop parse rest (h ++ [{ URL := url, Alive := true }]) (servers ++ [h.length])

/-- Function `func NewLoadBalancer(serverURLs []string) *LoadBalancer`, run on an empty heap. -/
def NewLoadBalancer (parse : String → Option URL) (serverURLs : List String) :
    Except Abort World :=
  match NewLoadBalancer.loop parse serverURLs [] [] with
  | Except.error e => Except.error e
  | Except.ok (h, servers) =>
    Except.ok { heap := h, lb := { servers := servers, current := 0 } }

/-! ## Selection -/

/-- The `for i := 0; i < len(lb.servers); i++` loop of `NextServer`, by the number of
iterations that remain (`len(lb.servers) - i`; the body does not read `i`). The
result is the returned pointer (`none` is `nil`) and the final value of
`lb.current`. -/
def LoadBalancer.NextServer.loop (h : Heap) (servers : List Ptr) :
    Nat → Int → Except Abort (Option Ptr × Int)
  | 0, current => Except.ok (none, current)
  | n + 1, current =>
    match goRem (wrapInt (current + 1)) (servers.length : Int) with
    | Except.error e => Except.error e
    | Except.ok current =>
      match index servers current with
      | Except.error e => Except.error e
      | Except.ok s =>
        match Server.IsAlive h s with
        | Except.error e => Except.error e
        | Except.ok true => Except.ok (some s, current)
        | Except.ok false => LoadBalancer.NextServer.loop h servers n current

/-- Method `func (lb *LoadBalancer) NextServer() *Server`. -/
def LoadBalancer.NextServer (h : Heap) (lb : LoadBalancer) :
    Except Abort (Option Ptr × LoadBalancer) :=
  match LoadBalancer.NextServer.loop h lb.servers lb.servers.length lb.current with
  | Except.error e => Except.error e
  | Except.ok (s, current) => Except.ok (s, { lb with current := current })

/-! ## Routing -/

/-- The parts of an `http.Request` that the claims speak about. -/
structure Request where
  Method : String
  URL : URL
  Host : String
  Header : List (String × List String)
  Body : String
  deriving DecidableEq, Repr

/-- Method `func (lb *LoadBalancer) director(req *http.Request)`: the request after the
in-place rewrite, and the balancer after the `NextServer` call. -/
def LoadBalancer.director (h : Heap) (lb : LoadBalancer) (req : Request) :
    Except Abort (Request × LoadBalancer) :=
  match lb.NextServer h with
  | Except.error e => Except.error e
  | Except.ok (none, lb') => Except.ok (req, lb')
  | Except.ok (some server, lb') =>
    match h[server]? with
    | none => Except.error Abort.nilDereference
    | some srv =>
      Except.ok ({ req with
                    URL := { req.URL with Scheme := srv.URL.Scheme, Host := srv.URL.Host },
                    Host := srv.URL.Host }, lb')

/-- What a backend answers: status line and body. -/
structure BackendResponse where
  StatusCode : Nat
  Body : String
  deriving DecidableEq, Repr

/-- The round trip of the proxy's transport: the backend's answer, or `none` for a
transport-level error. It is a parameter of the model. -/
abbrev Transport := Request → Option BackendResponse

/-- What has been written to the `http.ResponseWriter` when `ServeHTTP` returns. -/
inductive Response where
  /-- The call `http.Error(w, error, code)`. -/
  | Error (error : String) (code : Nat)
  /-- The proxy's default error handler after a failed round trip: status 502. -/
  | BadGateway
  /-- The backend's answer, copied to the caller by the proxy. -/
  | Copied (res : BackendResponse)
  deriving DecidableEq, Repr

/-- The constant `http.StatusServiceUnavailable`. -/
def StatusServiceUnavailable : Nat := 503

/-- The constant `http.StatusBadGateway`. -/
def StatusBadGateway : Nat := 502

/-- The status code the caller sees. -/
def Response.StatusCode : Response → Nat
  | Response.Error _ code => code
  | Response.BadGateway => StatusBadGateway
  | Response.Copied res => res.StatusCode

/-- The library method `httputil.ReverseProxy.ServeHTTP` with the `Director` that
`NewLoadBalancer` installs, reduced to its three steps: run the director on the
outgoing copy of the request, hand the outgoing request to the transport, and
either copy the backend's answer to the caller or, when the round trip failed,
answer 502. The header bookkeeping that the library does on the outgoing copy is
left out. The second component of the result is the request that was handed to
the transport. -/
def ReverseProxy.ServeHTTP (transport : Transport) (h : Heap) (lb : LoadBalancer)
    (r : Request) : Except Abort ((Response × Request) × LoadBalancer) :=
  match lb.director h r with
  | Except.error e => Except.error e
  | Except.ok (outreq, lb') =>
    match transport outreq with
    | none => Except.ok ((Response.BadGateway, outreq), lb')
    | some res => Except.ok ((Response.Copied res, outreq), lb')

/-- Method `func (lb *LoadBalancer) ServeHTTP(w http.ResponseWriter, r *http.Request)`: the
response written, the request handed to the transport (`none` when the proxy was
not called) and the balancer afterwards. -/
def LoadBalancer.ServeHTTP (transport : Transport) (h : Heap) (lb : LoadBalancer)
    (r : Request) : Except Abort ((Response × Option Request) × LoadBalancer) :=
  if lb.servers.length = 0 then
    Except.ok ((Response.Error "No servers available" StatusServiceUnavailable, none), lb)
  else
    match ReverseProxy.ServeHTTP transport h lb r with
    | Except.error e => Except.error e
    | Except.ok ((resp, outreq), lb') => Except.ok ((resp, some outreq), lb')

/-! ## Sequences of operations -/

/-- The two operations that change the state after construction. -/
inductive Op where
  | SetAlive (s : Ptr) (alive : Bool)
  | NextServer
  deriving DecidableEq, Repr

/-- One operation: the value it returns (`NextServer` only) and the next state. -/
def step (w : World) : Op → Except Abort (Option (Option Ptr) × World)
  | Op.SetAlive s alive =>
    match Server.SetAlive w.heap s alive with
    | Except.error e => Except.error e
    | Except.ok h => Except.ok (none, { w with heap := h })
  | Op.NextServer =>
    match w.lb.NextServer w.heap with
    | Except.error e => Except.error e
    | Except.ok (s, lb') => Except.ok (some s, { w with lb := lb' })

/-- A finite sequence of operations: the values returned by its `NextServer` calls,
in order, and the final state. -/
def run : List Op → World → Except Abort (List (Option Ptr) × World)
  | [], w => Except.ok ([], w)
  | op :: ops, w =>
    match step w op with
    | Except.error e => Except.error e
    | Except.ok (r, w') =>
      match run ops w' with
      | Except.error e => Except.error e
      | Except.ok (rs, w2) => Except.ok (r.toList ++ rs, w2)

/-- The number `n` of consecutive `NextServer` calls. -/
def calls (n : Nat) (w : World) : Except Abort (List (Option Ptr) × World) :=
  run (List.replicate n Op.NextServer) w

/-! ## Vocabulary of the statements -/

/-- The pool's slice and pointers are well formed: its length is an `int` and every
entry addresses a `Server` object. -/
def World.WF (w : World) : Prop :=
  (w.lb.servers.length : Int) ≤ maxInt ∧ ∀ s ∈ w.lb.servers, s < w.heap.length

instance (w : World) : Decidable w.WF := by
  unfold World.WF; infer_instance

/-- The flag of the object at `s`, `false` when `s` addresses nothing. -/
def Heap.alive (h : Heap) (s : Ptr) : Bool :=
  match h[s]? with
  | some srv => srv.Alive
  | none => false

/-- Whether the server at pool position `i` is alive. -/
def World.aliveAt (w : World) (i : Nat) : Bool :=
  match w.lb.servers[i]? with
  | some s => Heap.alive w.heap s
  | none => false

/-- The live servers of the pool in cyclic pool order, starting with the position
after `c`. -/
def World.liveAfter (w : World) (c : Nat) : List Ptr :=
  (w.lb.servers.rotate (c + 1)).filter (Heap.alive w.heap)

/-- The first `n` terms of the endless repetition of `L`. -/
def cycle (L : List Ptr) (n : Nat) : List (Option Ptr) :=
  (List.range n).map (fun j => L[j % L.length]?)

/-- The cursor is non-negative and inside the pool, or the pool is empty and the
cursor is 0. -/
def World.CursorOK (w : World) : Prop :=
  0 ≤ w.lb.current ∧
    (w.lb.current < (w.lb.servers.length : Int) ∨ (w.lb.servers.length = 0 ∧ w.lb.current = 0))

/-! ## Example inputs -/

/-- The address of a backend on `localhost`. -/
def localhost (port : String) : URL :=
  { Scheme := "http", Host := "localhost:" ++ port, Path := "", RawQuery := "" }

/-- A stand-in for `url.Parse` that accepts every address and reads it as
`http://` followed by the host. -/
def parseHost (serverURL : String) : Option URL :=
  some { Scheme := "http", Host := serverURL, Path := "", RawQuery := "" }

/-- A transport that can reach no backend: every round trip fails. -/
def unreachable : Transport := fun _ => none

/-- The request `GET /` as the listener on port 8080 receives it. -/
def getRoot : Request :=
  { Method := "GET", URL := { Scheme := "", Host := "", Path := "/", RawQuery := "" },
    Host := "localhost:8080", Header := [("Accept", ["text/plain"])], Body := "" }

/-- Pool `[A, B, C]` as `NewLoadBalancer` builds it: all alive, cursor 0. -/
def poolABC : World :=
  { heap := [⟨localhost "8081", true⟩, ⟨localhost "8082", true⟩, ⟨localhost "8083", true⟩],
    lb := { servers := [0, 1, 2], current := 0 } }

/-- Pool `[A, B, C]` with `B` dead and the cursor on `A`. -/
def poolBDead : World :=
  { heap := [⟨localhost "8081", true⟩, ⟨localhost "8082", false⟩, ⟨localhost "8083", true⟩],
    lb := { servers := [0, 1, 2], current := 0 } }

/-- Pool `[A, B, C]` with `B` dead and the cursor on `C`. -/
def poolBDeadAtC : World :=
  { heap := [⟨localhost "8081", true⟩, ⟨localhost "8082", false⟩, ⟨localhost "8083", true⟩],
    lb := { servers := [0, 1, 2], current := 2 } }

/-- Pool `[A, B, C]`, all dead, with the cursor on `B`. -/
def poolAllDead : World :=
  { heap := [⟨localhost "8081", false⟩, ⟨localhost "8082", false⟩, ⟨localhost "8083", false⟩],
    lb := { servers := [0, 1, 2], current := 1 } }

theorem wrapInt_succ (c : Nat) (hc : (c : Int) < maxInt) : wrapInt ((c : Int) + 1) = ((c + 1 : Nat) : Int) := by
  unfold maxInt at hc
  unfold wrapInt
  push_cast
  omega

theorem goRem_succ (c N : Nat) (hc : (c : Int) < maxInt) (hN : 0 < N) :
    goRem (wrapInt ((c : Int) + 1)) (N : Int) = Except.ok (((c + 1) % N : Nat) : Int) := by
  have hN0 : (N : Int) ≠ 0 := by omega
  rw [wrapInt_succ c hc]
  simp only [goRem, hN0, if_false, Int.ofNat_tmod]

theorem index_natCast {α : Type} (xs : List α) (i : Nat) (x : α) (hx : xs[i]? = some x) :
    index xs (i : Int) = Except.ok x := by
  simp [index, hx]

theorem isAlive_eq (h : Heap) (s : Ptr) (hs : s < h.length) :
    Server.IsAlive h s = Except.ok (Heap.alive h s) := by
  simp [Server.IsAlive, Heap.alive, List.getElem?_eq_getElem hs]

/-- One iteration of the loop from an in-range `int` cursor. -/
theorem loop_succ (w : World) (hwf : w.WF) (n c : Nat) (hc : (c : Int) < maxInt)
    (hN : 0 < w.lb.servers.length) :
    LoadBalancer.NextServer.loop w.heap w.lb.servers (n + 1) (c : Int) =
      if w.aliveAt ((c + 1) % w.lb.servers.length) = true then
        Except.ok (w.lb.servers[(c + 1) % w.lb.servers.length]?,
          (((c + 1) % w.lb.servers.length : Nat) : Int))
      else
        LoadBalancer.NextServer.loop w.heap w.lb.servers n
          (((c + 1) % w.lb.servers.length : Nat) : Int) := by
  have hlt : (c + 1) % w.lb.servers.length < w.lb.servers.length := Nat.mod_lt _ hN
  have hget : w.lb.servers[(c + 1) % w.lb.servers.length]? =
      some (w.lb.servers[(c + 1) % w.lb.servers.length]) := List.getElem?_eq_getElem hlt
  have hs : w.lb.servers[(c + 1) % w.lb.servers.length] < w.heap.length :=
    hwf.2 _ (List.getElem_mem _)
  rw [LoadBalancer.NextServer.loop, goRem_succ c _ hc hN]
  simp only [index_natCast _ _ _ hget, isAlive_eq _ _ hs, World.aliveAt, hget]
  cases Heap.alive w.heap (w.lb.servers[(c + 1) % w.lb.servers.length]) <;> simp

theorem mod_succ_add (c j N : Nat) : ((c + 1) % N + j) % N = (c + (j + 1)) % N := by
  rw [Nat.add_mod, Nat.mod_mod, ← Nat.add_mod]
  congr 1
  omega

theorem natCast_mod_lt_maxInt (w : World) (hwf : w.WF) (c : Nat) (hN : 0 < w.lb.servers.length) :
    (((c + 1) % w.lb.servers.length : Nat) : Int) < maxInt := by
  have h1 : (c + 1) % w.lb.servers.length < w.lb.servers.length := Nat.mod_lt _ hN
  have h2 := hwf.1
  omega

/-- A scan over `n` dead positions returns `nil`; the cursor has moved `n` places. -/
theorem loop_none (w : World) (hwf : w.WF) (hN : 0 < w.lb.servers.length) :
    ∀ (n c : Nat), (c : Int) < maxInt →
      (∀ j, 1 ≤ j → j ≤ n → w.aliveAt ((c + j) % w.lb.servers.length) = false) →
      LoadBalancer.NextServer.loop w.heap w.lb.servers n (c : Int) =
        Except.ok (none, if n = 0 then (c : Int) else (((c + n) % w.lb.servers.length : Nat) : Int)) := by
  intro n
  induction n with
  | zero => intro c _ _; simp [LoadBalancer.NextServer.loop]
  | succ n ih =>
    intro c hc hdead
    have h1 : w.aliveAt ((c + 1) % w.lb.servers.length) = false := hdead 1 (le_refl _) (by omega)
    rw [loop_succ w hwf n c hc hN, h1]
    simp only [Bool.false_eq_true, if_false]
    rw [ih _ (natCast_mod_lt_maxInt w hwf c hN)]
    · by_cases hn : n = 0
      · subst hn; simp
      · simp only [hn, if_false, Nat.succ_ne_zero, mod_succ_add]
    · intro j hj1 hjn
      rw [mod_succ_add]
      exact hdead (j + 1) (by omega) (by omega)

/-- A scan whose first live position is the `k`-th one returns the server there and
leaves the cursor on it. -/
theorem loop_some (w : World) (hwf : w.WF) (hN : 0 < w.lb.servers.length) :
    ∀ (n c k : Nat), (c : Int) < maxInt → 1 ≤ k → k ≤ n →
      w.aliveAt ((c + k) % w.lb.servers.length) = true →
      (∀ j, 1 ≤ j → j < k → w.aliveAt ((c + j) % w.lb.servers.length) = false) →
      LoadBalancer.NextServer.loop w.heap w.lb.servers n (c : Int) =
        Except.ok (w.lb.servers[(c + k) % w.lb.servers.length]?,
          (((c + k) % w.lb.servers.length : Nat) : Int)) := by
  intro n
  induction n with
  | zero => intro c k _ hk1 hkn; omega
  | succ n ih =>
    intro c k hc hk1 hkn hlive hdead
    rw [loop_succ w hwf n c hc hN]
    by_cases hk : k = 1
    · subst hk
      simp [hlive]
    · have h1 : w.aliveAt ((c + 1) % w.lb.servers.length) = false := hdead 1 (le_refl _) (by omega)
      rw [h1]
      simp only [Bool.false_eq_true, if_false]
      have hk' : k - 1 + 1 = k := by omega
      rw [ih _ (k - 1) (natCast_mod_lt_maxInt w hwf c hN) (by omega) (by omega)]
      · rw [mod_succ_add, hk']
      · rw [mod_succ_add, hk']; exact hlive
      · intro j hj1 hjk
        rw [mod_succ_add]
        exact hdead (j + 1) (by omega) (by omega)

/-! ## The first live position after the cursor -/

/-- Every pool position is reached from `c` in between 1 and `N` single steps. -/
theorem exists_offset (c i N : Nat) (hi : i < N) : ∃ k, 1 ≤ k ∧ k ≤ N ∧ (c + k) % N = i := by
  have hr : c % N < N := Nat.mod_lt _ (by omega)
  have hdm : N * (c / N) + c % N = c := Nat.div_add_mod c N
  by_cases hlt : c % N < i
  · refine ⟨i - c % N, by omega, by omega, ?_⟩
    have : c + (i - c % N) = i + N * (c / N) := by omega
    rw [this, Nat.add_mul_mod_self_left, Nat.mod_eq_of_lt hi]
  · refine ⟨i + N - c % N, by omega, by omega, ?_⟩
    have : c + (i + N - c % N) = i + N * (c / N + 1) := by
      rw [Nat.mul_add]; omega
    rw [this, Nat.add_mul_mod_self_left, Nat.mod_eq_of_lt hi]

/-- With a live server in the pool there is a least number of steps `k` in `1..N`
that leads from `c` to a live position. -/
theorem exists_first_alive (w : World) (c : Nat)
    (hlive : ∃ i, i < w.lb.servers.length ∧ w.aliveAt i = true) :
    ∃ k, 1 ≤ k ∧ k ≤ w.lb.servers.length ∧
      w.aliveAt ((c + k) % w.lb.servers.length) = true ∧
      ∀ j, 1 ≤ j → j < k → w.aliveAt ((c + j) % w.lb.servers.length) = false := by
  obtain ⟨i, hi, hal⟩ := hlive
  obtain ⟨k0, hk1, hkN, hk0⟩ := exists_offset c i _ hi
  have hex : ∃ k, 1 ≤ k ∧ w.aliveAt ((c + k) % w.lb.servers.length) = true :=
    ⟨k0, hk1, by rw [hk0]; exact hal⟩
  refine ⟨Nat.find hex, (Nat.find_spec hex).1, ?_, (Nat.find_spec hex).2, ?_⟩
  · exact le_trans (Nat.find_min' hex ⟨hk1, by rw [hk0]; exact hal⟩) hkN
  · intro j hj1 hjk
    have := Nat.find_min hex hjk
    simp only [not_and, Bool.not_eq_true] at this
    exact this hj1

/-! ## Whole calls -/

/-- On a pool without a live server a call returns `nil` after `len(lb.servers)`
single steps of the cursor. -/
theorem NextServer_all_dead (w : World) (hwf : w.WF) (c : Nat)
    (hcur : w.lb.current = (c : Int)) (hc : (c : Int) < maxInt)
    (hdead : ∀ i, i < w.lb.servers.length → w.aliveAt i = false) :
    w.lb.NextServer w.heap =
      Except.ok (none, { w.lb with
        current := if w.lb.servers.length = 0 then (c : Int)
          else (((c + w.lb.servers.length) % w.lb.servers.length : Nat) : Int) }) := by
  by_cases hN : w.lb.servers.length = 0
  · simp [LoadBalancer.NextServer, hN, LoadBalancer.NextServer.loop, hcur]
  · have hpos : 0 < w.lb.servers.length := Nat.pos_of_ne_zero hN
    rw [LoadBalancer.NextServer, hcur,
      loop_none w hwf hpos _ c hc (fun j _ _ => hdead _ (Nat.mod_lt _ hpos))]

/-- On a pool with a live server a call returns a server, from every cursor whose
successor is representable. -/
theorem NextServer_some (w : World) (hwf : w.WF) (c : Nat)
    (hcur : w.lb.current = (c : Int)) (hc : (c : Int) < maxInt)
    (hlive : ∃ i, i < w.lb.servers.length ∧ w.aliveAt i = true) :
    ∃ k s, 1 ≤ k ∧ k ≤ w.lb.servers.length ∧
      w.aliveAt ((c + k) % w.lb.servers.length) = true ∧
      (∀ j, 1 ≤ j → j < k → w.aliveAt ((c + j) % w.lb.servers.length) = false) ∧
      w.lb.servers[(c + k) % w.lb.servers.length]? = some s ∧
      w.lb.NextServer w.heap =
        Except.ok (some s,
          { w.lb with current := (((c + k) % w.lb.servers.length : Nat) : Int) }) := by
  obtain ⟨k, hk1, hkN, hal, hdead⟩ := exists_first_alive w c hlive
  have hN : 0 < w.lb.servers.length := by omega
  have hlt : (c + k) % w.lb.servers.length < w.lb.servers.length := Nat.mod_lt _ hN
  refine ⟨k, w.lb.servers[(c + k) % w.lb.servers.length], hk1, hkN, hal, hdead,
    List.getElem?_eq_getElem hlt, ?_⟩
  rw [LoadBalancer.NextServer, hcur, loop_some w hwf hN _ c k hc hk1 hkN hal hdead,
    List.getElem?_eq_getElem hlt]

/-- Unfolding of `calls` at a successor. -/
theorem calls_succ (n : Nat) (w : World) :
    calls (n + 1) w =
      match w.lb.NextServer w.heap with
      | Except.error e => Except.error e
      | Except.ok (s, lb') =>
        match calls n { w with lb := lb' } with
        | Except.error e => Except.error e
        | Except.ok (rs, w2) => Except.ok (s :: rs, w2) := by
  simp only [calls, List.replicate_succ, run, step]
  cases w.lb.NextServer w.heap with
  | error e => rfl
  | ok p =>
    obtain ⟨s, lb'⟩ := p
    simp only
    cases run (List.replicate n Op.NextServer) { w with lb := lb' } with
    | error e => rfl
    | ok q => rfl

/-- The filter of a prefix whose only accepted element is its last one. -/
theorem filter_take_first {α : Type} (p : α → Bool) :
    ∀ (k : Nat) (R : List α) (hk : k < R.length),
      (∀ j (hj : j < k), p (R[j]) = false) → p (R[k]) = true →
      (R.take (k + 1)).filter p = [R[k]] := by
  intro k
  induction k with
  | zero =>
    intro R hk _ hal
    cases R with
    | nil => simp at hk
    | cons a R' =>
      simp only [List.getElem_cons_zero] at hal
      simp [hal]
  | succ k ih =>
    intro R hk hdead hal
    cases R with
    | nil => simp at hk
    | cons a R' =>
      have ha : p a = false := hdead 0 (by omega)
      have hk' : k < R'.length := by simpa using hk
      have := ih R' hk' (fun j hj => by simpa using hdead (j + 1) (by omega))
        (by simpa using hal)
      simp only [List.take_succ_cons, List.filter_cons, ha, Bool.false_eq_true, if_false,
        List.getElem_cons_succ]
      exact this

/-- The accepted elements of a list whose first accepted element is at `k`, and those
of the list rotated just past `k`. -/
theorem filter_rotate_first {α : Type} (p : α → Bool) (k : Nat) (R : List α)
    (hk : k < R.length) (hdead : ∀ j (hj : j < k), p (R[j]) = false)
    (hal : p (R[k]) = true) :
    R.filter p = R[k] :: (R.drop (k + 1)).filter p ∧
    (R.rotate (k + 1)).filter p = (R.filter p).rotate 1 := by
  have h1 := filter_take_first p k R hk hdead hal
  have h2 : R.filter p = R[k] :: (R.drop (k + 1)).filter p := by
    conv_lhs => rw [← List.take_append_drop (k + 1) R]
    rw [List.filter_append, h1]
    rfl
  refine ⟨h2, ?_⟩
  rw [List.rotate_eq_drop_append_take (by omega), List.filter_append, h1, h2,
    List.rotate_cons_succ, List.rotate_zero]

/-- Position `j` of the pool rotated to start after `c`. -/
theorem aliveAt_rotate (w : World) (c j : Nat)
    (hj : j < (w.lb.servers.rotate (c + 1)).length) :
    Heap.alive w.heap ((w.lb.servers.rotate (c + 1))[j]) =
      w.aliveAt ((c + (j + 1)) % w.lb.servers.length) := by
  have hN : j < w.lb.servers.length := by simpa using hj
  have hlt : (c + (j + 1)) % w.lb.servers.length < w.lb.servers.length :=
    Nat.mod_lt _ (by omega)
  have he : (j + (c + 1)) = (c + (j + 1)) := by omega
  simp only [World.aliveAt, List.getElem_rotate, he, List.getElem?_eq_getElem hlt]

/-- Rotating past the position `(c + k) mod N` is rotating `k` further than past `c`. -/
theorem rotate_after_step (l : List Ptr) (c k : Nat) :
    l.rotate ((c + k) % l.length + 1) = (l.rotate (c + 1)).rotate k := by
  rw [List.rotate_rotate, ← List.rotate_mod l ((c + k) % l.length + 1), Nat.mod_add_mod,
    List.rotate_mod]
  congr 1
  omega

/-- One call in terms of the cyclic list of live servers: it returns the head of the
list, and the list as seen from the new cursor is the old one rotated by one. -/
theorem NextServer_liveAfter (w : World) (hwf : w.WF) (c : Nat)
    (hcur : w.lb.current = (c : Int)) (hc : c < w.lb.servers.length)
    (hne : w.liveAfter c ≠ []) :
    ∃ s c', (w.liveAfter c).head? = some s ∧ c' < w.lb.servers.length ∧
      w.lb.NextServer w.heap = Except.ok (some s, { w.lb with current := (c' : Int) }) ∧
      (w.lb.servers.rotate (c' + 1)).filter (Heap.alive w.heap) = (w.liveAfter c).rotate 1 := by
  have hcm : (c : Int) < maxInt := by have := hwf.1; omega
  have hlive : ∃ i, i < w.lb.servers.length ∧ w.aliveAt i = true := by
    obtain ⟨s, hs⟩ := List.exists_mem_of_ne_nil _ hne
    simp only [World.liveAfter, List.mem_filter, List.mem_rotate] at hs
    obtain ⟨i, hi, hget⟩ := List.getElem_of_mem hs.1
    exact ⟨i, hi, by simp [World.aliveAt, List.getElem?_eq_getElem hi, hget, hs.2]⟩
  obtain ⟨k, s, hk1, hkN, hal, hdead, hs, hcall⟩ := NextServer_some w hwf c hcur hcm hlive
  have hN : 0 < w.lb.servers.length := by omega
  have hkR : k - 1 < (w.lb.servers.rotate (c + 1)).length := by
    rw [List.length_rotate]; omega
  have hk' : k - 1 + 1 = k := by omega
  have hlt : (c + k) % w.lb.servers.length < w.lb.servers.length := Nat.mod_lt _ hN
  have he : k - 1 + (c + 1) = c + k := by omega
  have hsR : (w.lb.servers.rotate (c + 1))[k - 1]? = some s := by
    rw [List.getElem?_rotate (by omega), he]
    exact hs
  rw [List.getElem?_eq_getElem hkR] at hsR
  have hsR' := Option.some.inj hsR
  obtain ⟨hfil, hrot⟩ := filter_rotate_first (Heap.alive w.heap) (k - 1) _ hkR
    (fun j hj => by rw [aliveAt_rotate]; exact hdead (j + 1) (by omega) (by omega))
    (by rw [aliveAt_rotate, hk']; exact hal)
  refine ⟨s, (c + k) % w.lb.servers.length, ?_, Nat.mod_lt _ hN, hcall, ?_⟩
  · rw [World.liveAfter, hfil, hsR']; rfl
  · rw [rotate_after_step, World.liveAfter, ← hrot, hk']

/-! ## Consecutive calls -/

theorem cycle_rotate_one (L : List Ptr) (s : Ptr) (hs : L.head? = some s) (n : Nat) :
    some s :: cycle (L.rotate 1) n = cycle L (n + 1) := by
  have hpos : 0 < L.length := by
    cases L with
    | nil => simp at hs
    | cons a l => simp
  simp only [cycle, List.range_succ_eq_map, List.map_cons, List.map_map, List.length_rotate,
    Nat.zero_mod]
  congr 1
  · rw [← hs, List.head?_eq_getElem?]
  · apply List.map_congr_left
    intro j _
    simp only [Function.comp_apply]
    rw [List.getElem?_rotate (Nat.mod_lt _ hpos), Nat.mod_add_mod]

theorem cycle_length (L : List Ptr) : cycle L L.length = L.map some := by
  apply List.ext_getElem?
  intro i
  by_cases hi : i < L.length
  · simp [cycle, hi, Nat.mod_eq_of_lt hi, List.getElem?_eq_getElem hi, List.getElem?_range hi]
  · have hi' : L.length ≤ i := by omega
    rw [List.getElem?_eq_none (by simpa [cycle] using hi'),
      List.getElem?_eq_none (by simpa using hi')]

theorem cycle_length_succ (L : List Ptr) : cycle L (L.length + 1) = L.map some ++ [L.head?] := by
  have h := cycle_length L
  simp only [cycle] at h
  simp only [cycle, List.range_succ, List.map_append, h, List.map_cons, List.map_nil,
    Nat.mod_self, List.head?_eq_getElem?]

/-- The results of `n` consecutive calls are the first `n` terms of the endless
repetition of the live servers in cyclic order from the position after the cursor. -/
theorem calls_cycle (n : Nat) : ∀ (w : World) (c : Nat), w.WF → w.lb.current = (c : Int) →
    c < w.lb.servers.length → w.liveAfter c ≠ [] →
    ∃ w', calls n w = Except.ok (cycle (w.liveAfter c) n, w') := by
  induction n with
  | zero => intro w c _ _ _ _; exact ⟨w, rfl⟩
  | succ n ih =>
    intro w c hwf hcur hc hne
    obtain ⟨s, c', hhead, hc', hcall, hrot⟩ := NextServer_liveAfter w hwf c hcur hc hne
    have hne' : (w.liveAfter c).rotate 1 ≠ [] := by
      rw [Ne, List.rotate_eq_nil_iff]; exact hne
    obtain ⟨w', hw'⟩ := ih { w with lb := { w.lb with current := (c' : Int) } } c' hwf rfl hc'
      (by rw [World.liveAfter]; simp only; rw [hrot]; exact hne')
    refine ⟨w', ?_⟩
    rw [calls_succ, hcall]
    simp only
    rw [hw']
    simp only
    have he : ({ w with lb := { w.lb with current := (c' : Int) } } : World).liveAfter c' =
        (w.liveAfter c).rotate 1 := hrot
    rw [he, cycle_rotate_one _ s hhead]

/-! ## Sequences of operations -/

/-- A run that returns is a first step that returns followed by a run that returns. -/
theorem run_cons_ok (op : Op) (ops : List Op) (w w2 : World) (rs : List (Option Ptr))
    (h : run (op :: ops) w = Except.ok (rs, w2)) :
    ∃ r w' rs', step w op = Except.ok (r, w') ∧ run ops w' = Except.ok (rs', w2) ∧
      rs = r.toList ++ rs' := by
  rw [run] at h
  cases hs : step w op with
  | error e => rw [hs] at h; cases h
  | ok p =>
    obtain ⟨r, w'⟩ := p
    rw [hs] at h
    simp only at h
    cases hr : run ops w' with
    | error e => rw [hr] at h; cases h
    | ok q =>
      obtain ⟨rs', w3⟩ := q
      rw [hr] at h
      simp only [Except.ok.injEq, Prod.mk.injEq] at h
      exact ⟨r, w', rs', rfl, by rw [hr, h.2], h.1.symm⟩

/-- A run of `a ++ b` that returns is a run of `a` followed by a run of `b`. -/
theorem run_append_ok (a b : List Op) : ∀ (w w2 : World) (rs : List (Option Ptr)),
    run (a ++ b) w = Except.ok (rs, w2) →
    ∃ rs1 w' rs2, run a w = Except.ok (rs1, w') ∧ run b w' = Except.ok (rs2, w2) ∧
      rs = rs1 ++ rs2 := by
  induction a with
  | nil => intro w w2 rs h; exact ⟨[], w, rs, rfl, h, rfl⟩
  | cons op a ih =>
    intro w w2 rs h
    obtain ⟨r, w1, rs', hs, hr, hrs⟩ := run_cons_ok op (a ++ b) w w2 rs h
    obtain ⟨rs1, w', rs2, h1, h2, h3⟩ := ih w1 w2 rs' hr
    refine ⟨r.toList ++ rs1, w', rs2, ?_, h2, by rw [hrs, h3, List.append_assoc]⟩
    rw [run, hs]
    simp only
    rw [h1]

/-- A property kept by every step of a sequence is kept by its run. -/
theorem run_preserves (P : World → Prop) (ops : List Op) :
    (∀ op ∈ ops, ∀ (w w' : World) (r : Option (Option Ptr)),
      P w → step w op = Except.ok (r, w') → P w') →
    ∀ (w w2 : World) (rs : List (Option Ptr)),
      run ops w = Except.ok (rs, w2) → P w → P w2 := by
  induction ops with
  | nil =>
    intro _ w w2 rs h hP
    simp only [run, Except.ok.injEq, Prod.mk.injEq] at h
    rw [← h.2]; exact hP
  | cons op ops ih =>
    intro hstep w w2 rs h hP
    obtain ⟨r, w1, rs', hs, hr, _⟩ := run_cons_ok op ops w w2 rs h
    exact ih (fun op' hop' => hstep op' (List.mem_cons_of_mem _ hop')) w1 w2 rs' hr
      (hstep op (List.mem_cons_self _ _) w w1 r hP hs)

/-- What a `SetAlive` step does. -/
theorem step_SetAlive_ok (w w' : World) (s : Ptr) (alive : Bool) (r : Option (Option Ptr))
    (h : step w (Op.SetAlive s alive) = Except.ok (r, w')) :
    ∃ srv, w.heap[s]? = some srv ∧ r = none ∧
      w' = { w with heap := w.heap.set s { srv with Alive := alive } } := by
  simp only [step, Server.SetAlive] at h
  cases hs : w.heap[s]? with
  | none => rw [hs] at h; cases h
  | some srv =>
    rw [hs] at h
    simp only [Except.ok.injEq, Prod.mk.injEq] at h
    exact ⟨srv, rfl, h.1.symm, h.2.symm⟩

/-- What a `NextServer` step does. -/
theorem step_NextServer_ok (w w' : World) (r : Option (Option Ptr))
    (h : step w Op.NextServer = Except.ok (r, w')) :
    ∃ s lb', w.lb.NextServer w.heap = Except.ok (s, lb') ∧ r = some s ∧
      w' = { w with lb := lb' } := by
  simp only [step] at h
  cases hs : w.lb.NextServer w.heap with
  | error e => rw [hs] at h; cases h
  | ok p =>
    obtain ⟨s, lb'⟩ := p
    rw [hs] at h
    simp only [Except.ok.injEq, Prod.mk.injEq] at h
    exact ⟨s, lb', rfl, h.1.symm, h.2.symm⟩

/-! ## Liveness of the returned server -/

/-- The loop returns only a pointer whose `IsAlive` check succeeded. -/
theorem loop_returns_alive (h : Heap) (servers : List Ptr) :
    ∀ (n : Nat) (c c' : Int) (s : Ptr),
      LoadBalancer.NextServer.loop h servers n c = Except.ok (some s, c') →
      Server.IsAlive h s = Except.ok true := by
  intro n
  induction n with
  | zero =>
    intro c c' s hl
    simp [LoadBalancer.NextServer.loop] at hl
  | succ n ih =>
    intro c c' s hl
    rw [LoadBalancer.NextServer.loop] at hl
    cases hg : goRem (wrapInt (c + 1)) (servers.length : Int) with
    | error e => rw [hg] at hl; cases hl
    | ok c1 =>
      rw [hg] at hl
      simp only at hl
      cases hi : index servers c1 with
      | error e => rw [hi] at hl; cases hl
      | ok s1 =>
        rw [hi] at hl
        simp only at hl
        cases ha : Server.IsAlive h s1 with
        | error e => rw [ha] at hl; cases hl
        | ok b =>
          rw [ha] at hl
          cases b with
          | true =>
            simp only [Except.ok.injEq, Prod.mk.injEq, Option.some.injEq] at hl
            rw [← hl.1]; exact ha
          | false =>
            simp only at hl
            exact ih c1 c' s hl

/-- A server returned by `NextServer` is alive in the state of the call. -/
theorem NextServer_returns_alive (h : Heap) (lb lb' : LoadBalancer) (s : Ptr)
    (hcall : lb.NextServer h = Except.ok (some s, lb')) :
    Server.IsAlive h s = Except.ok true := by
  rw [LoadBalancer.NextServer] at hcall
  cases hl : LoadBalancer.NextServer.loop h lb.servers lb.servers.length lb.current with
  | error e => rw [hl] at hcall; cases hcall
  | ok p =>
    obtain ⟨r, c'⟩ := p
    rw [hl] at hcall
    simp only [Except.ok.injEq, Prod.mk.injEq] at hcall
    rw [hcall.1] at hl
    exact loop_returns_alive h lb.servers _ _ _ s hl

/-- A step other than `SetAlive(true)` on `s` keeps `s` dead. -/
theorem step_keeps_dead (s : Ptr) (op : Op) (hop : op ≠ Op.SetAlive s true) (w w' : World)
    (r : Option (Option Ptr)) (hdead : Server.IsAlive w.heap s = Except.ok false)
    (hstep : step w op = Except.ok (r, w')) :
    Server.IsAlive w'.heap s = Except.ok false := by
  cases op with
  | NextServer =>
    obtain ⟨_, _, _, _, hw'⟩ := step_NextServer_ok w w' r hstep
    rw [hw']; exact hdead
  | SetAlive q alive =>
    obtain ⟨srv, hq, _, hw'⟩ := step_SetAlive_ok w w' q alive r hstep
    rw [hw']
    simp only [Server.IsAlive]
    by_cases hqs : q = s
    · subst hqs
      have hal : alive = false := by
        cases alive with
        | false => rfl
        | true => exact absurd rfl hop
      have hlt : q < w.heap.length := by
        rcases Nat.lt_or_ge q w.heap.length with h | h
        · exact h
        · rw [List.getElem?_eq_none h] at hq; cases hq
      simp [hlt, hal]
    · rw [List.getElem?_set_ne hqs]
      exact hdead

/-! ## Construction and the cursor invariant -/

/-- The construction loop appends one pool entry and one heap object per address,
and every pool entry addresses a heap object. -/
theorem NewLoadBalancer_loop_ok (parse : String → Option URL) :
    ∀ (serverURLs : List String) (h : Heap) (servers : List Ptr) (h' : Heap)
      (servers' : List Ptr),
      NewLoadBalancer.loop parse serverURLs h servers = Except.ok (h', servers') →
      h'.length = h.length + serverURLs.length ∧
      servers'.length = servers.length + serverURLs.length ∧
      ((∀ s ∈ servers, s < h.length) → ∀ s ∈ servers', s < h'.length) := by
  intro serverURLs
  induction serverURLs with
  | nil =>
    intro h servers h' servers' hl
    simp only [NewLoadBalancer.loop, Except.ok.injEq, Prod.mk.injEq] at hl
    rw [← hl.1, ← hl.2]
    exact ⟨rfl, rfl, fun hp => hp⟩
  | cons u rest ih =>
    intro h servers h' servers' hl
    rw [NewLoadBalancer.loop] at hl
    cases hp : parse u with
    | none => rw [hp] at hl; cases hl
    | some url =>
      rw [hp] at hl
      simp only at hl
      obtain ⟨h1, h2, h3⟩ := ih _ _ h' servers' hl
      simp only [List.length_append, List.length_cons, List.length_nil] at h1 h2 ⊢
      refine ⟨by omega, by omega, fun hptr => h3 ?_⟩
      intro s hs
      rw [List.mem_append, List.mem_singleton] at hs
      simp only [List.length_append, List.length_cons, List.length_nil]
      rcases hs with hs | hs
      · exact Nat.lt_succ_of_lt (hptr s hs)
      · rw [hs]; exact Nat.lt_succ_self _

/-- The state that `NewLoadBalancer` returns. -/
theorem NewLoadBalancer_ok (parse : String → Option URL) (serverURLs : List String)
    (w0 : World) (hnew : NewLoadBalancer parse serverURLs = Except.ok w0) :
    w0.lb.current = 0 ∧ w0.lb.servers.length = serverURLs.length ∧
    ∀ s ∈ w0.lb.servers, s < w0.heap.length := by
  rw [NewLoadBalancer] at hnew
  cases hl : NewLoadBalancer.loop parse serverURLs [] [] with
  | error e => rw [hl] at hnew; cases hnew
  | ok p =>
    obtain ⟨h, servers⟩ := p
    rw [hl] at hnew
    simp only [Except.ok.injEq] at hnew
    obtain ⟨_, h2, h3⟩ := NewLoadBalancer_loop_ok parse serverURLs [] [] h servers hl
    rw [← hnew]
    exact ⟨rfl, by simpa using h2, h3 (fun s hs => by simp at hs)⟩

/-- A call keeps the pool and the cursor invariant. -/
theorem NextServer_cursor (w : World) (hwf : w.WF) (hcur : w.CursorOK)
    (r : Option Ptr) (lb' : LoadBalancer)
    (hcall : w.lb.NextServer w.heap = Except.ok (r, lb')) :
    lb'.servers = w.lb.servers ∧ ({ w with lb := lb' } : World).CursorOK := by
  obtain ⟨h0, hin⟩ := hcur
  have hc : w.lb.current = ((w.lb.current.toNat : Nat) : Int) := (Int.toNat_of_nonneg h0).symm
  have hmax := hwf.1
  have hcm : ((w.lb.current.toNat : Nat) : Int) < maxInt := by
    rw [← hc]
    rcases hin with hin | hin
    · omega
    · rw [hin.2]; decide
  by_cases hdead : ∀ i, i < w.lb.servers.length → w.aliveAt i = false
  · rw [NextServer_all_dead w hwf _ hc hcm hdead] at hcall
    simp only [Except.ok.injEq, Prod.mk.injEq] at hcall
    rw [← hcall.2]
    refine ⟨rfl, ?_⟩
    simp only [World.CursorOK]
    by_cases hN : w.lb.servers.length = 0
    · simp only [hN, if_true]
      rw [← hc]
      refine ⟨h0, Or.inr ⟨trivial, ?_⟩⟩
      rcases hin with hin | hin
      · omega
      · exact hin.2
    · simp only [hN, if_false]
      have := Nat.mod_lt (w.lb.current.toNat + w.lb.servers.length) (Nat.pos_of_ne_zero hN)
      exact ⟨by omega, Or.inl (by omega)⟩
  · have hlive : ∃ i, i < w.lb.servers.length ∧ w.aliveAt i = true := by
      by_contra hno
      apply hdead
      intro i hi
      cases hal : w.aliveAt i with
      | false => rfl
      | true => exact absurd ⟨i, hi, hal⟩ hno
    obtain ⟨k, s, _, hkN, _, _, _, hcall'⟩ := NextServer_some w hwf _ hc hcm hlive
    rw [hcall'] at hcall
    simp only [Except.ok.injEq, Prod.mk.injEq] at hcall
    rw [← hcall.2]
    refine ⟨rfl, ?_⟩
    simp only [World.CursorOK]
    have := Nat.mod_lt (w.lb.current.toNat + k) (show 0 < w.lb.servers.length by omega)
    exact ⟨by omega, Or.inl (by omega)⟩

/-- Every step keeps the pool, the validity of its pointers and the cursor invariant. -/
theorem step_invariant (S : List Ptr) (op : Op) (w w' : World) (r : Option (Option Ptr))
    (hinv : w.lb.servers = S ∧ w.WF ∧ w.CursorOK)
    (hstep : step w op = Except.ok (r, w')) :
    w'.lb.servers = S ∧ w'.WF ∧ w'.CursorOK := by
  obtain ⟨hS, hwf, hcur⟩ := hinv
  cases op with
  | NextServer =>
    obtain ⟨s, lb', hcall, _, hw'⟩ := step_NextServer_ok w w' r hstep
    obtain ⟨h1, h2⟩ := NextServer_cursor w hwf hcur s lb' hcall
    rw [hw']
    refine ⟨by rw [← hS]; exact h1, ?_, h2⟩
    simp only [World.WF, h1]
    exact hwf
  | SetAlive q alive =>
    obtain ⟨srv, _, _, hw'⟩ := step_SetAlive_ok w w' q alive r hstep
    rw [hw']
    refine ⟨hS, ?_, hcur⟩
    simp only [World.WF, List.length_set]
    exact hwf

/-! ## Selection: the returned server (C1) -/

/-- C1: in a pool of `N ≥ 1` servers with cursor `c < N` and at least one live server,
`NextServer` returns the server at index `(c + k) mod N`, where `k` is the least
integer in `1..N` whose position `(c + k) mod N` holds a live server, and it leaves
the cursor equal to that index. -/
theorem NextServer_first_alive (w : World) (hwf : w.WF) (c : Nat)
    (hN : 1 ≤ w.lb.servers.length) (hcur : w.lb.current = (c : Int))
    (hc : c < w.lb.servers.length)
    (hlive : ∃ i, i < w.lb.servers.length ∧ w.aliveAt i = true) :
    ∃ k s, 1 ≤ k ∧ k ≤ w.lb.servers.length ∧
      w.aliveAt ((c + k) % w.lb.servers.length) = true ∧
      (∀ j, 1 ≤ j → j < k → w.aliveAt ((c + j) % w.lb.servers.length) = false) ∧
      w.lb.servers[(c + k) % w.lb.servers.length]? = some s ∧
      w.lb.NextServer w.heap =
        Except.ok (some s,
          { w.lb with current := (((c + k) % w.lb.servers.length : Nat) : Int) }) := by
  obtain ⟨k, hk1, hkN, hal, hdead⟩ := exists_first_alive w c hlive
  have hlt : (c + k) % w.lb.servers.length < w.lb.servers.length := Nat.mod_lt _ hN
  have hcm : (c : Int) < maxInt := by have := hwf.1; omega
  refine ⟨k, w.lb.servers[(c + k) % w.lb.servers.length], hk1, hkN, hal, hdead,
    List.getElem?_eq_getElem hlt, ?_⟩
  rw [LoadBalancer.NextServer, hcur, loop_some w hwf hN _ c k hcm hk1 hkN hal hdead,
    List.getElem?_eq_getElem hlt]

/-- C1 at pool `[A, B, C]` with `B` dead and the cursor on `A`: two steps lead to `C`. -/
theorem NextServer_first_alive_witness :
    poolBDead.WF ∧ 1 ≤ poolBDead.lb.servers.length ∧ poolBDead.lb.current = ((0 : Nat) : Int) ∧
    0 < poolBDead.lb.servers.length ∧
    (∃ i, i < poolBDead.lb.servers.length ∧ poolBDead.aliveAt i = true) ∧
    poolBDead.lb.NextServer poolBDead.heap = Except.ok (some 2, { poolBDead.lb with current := 2 }) ∧
    ∃ k s, 1 ≤ k ∧ k ≤ poolBDead.lb.servers.length ∧
      poolBDead.aliveAt ((0 + k) % poolBDead.lb.servers.length) = true ∧
      (∀ j, 1 ≤ j → j < k → poolBDead.aliveAt ((0 + j) % poolBDead.lb.servers.length) = false) ∧
      poolBDead.lb.servers[(0 + k) % poolBDead.lb.servers.length]? = some s ∧
      poolBDead.lb.NextServer poolBDead.heap =
        Except.ok (some s,
          { poolBDead.lb with
            current := (((0 + k) % poolBDead.lb.servers.length : Nat) : Int) }) :=
  ⟨by decide, by decide, rfl, by decide, ⟨0, by decide, by decide⟩, by decide,
    NextServer_first_alive poolBDead (by decide) 0 (by decide) rfl (by decide)
      ⟨0, by decide, by decide⟩⟩

/-! ## Round robin (C2) -/

/-- C2: in a pool of `N` distinct servers with cursor `c < N` (so `N ≥ 1`) and `m ≥ 1` live
servers, whose flags stay fixed, `m` consecutive `NextServer` calls return the live
servers in cyclic pool order starting after position `c`: `m` distinct servers,
each live server exactly once; the `(m+1)`-th call returns the first one again.
When all `N` servers are alive these are all `N` servers, in the order of the pool
rotated to start after `c`. -/
theorem calls_round_robin (w : World) (hwf : w.WF) (hnd : w.lb.servers.Nodup) (c m : Nat)
    (hcur : w.lb.current = (c : Int)) (hc : c < w.lb.servers.length)
    (hm : (w.lb.servers.filter (Heap.alive w.heap)).length = m) (hm1 : 1 ≤ m) :
    (w.liveAfter c).length = m ∧ (w.liveAfter c).Nodup ∧
    (w.liveAfter c).Perm (w.lb.servers.filter (Heap.alive w.heap)) ∧
    (∃ w', calls m w = Except.ok ((w.liveAfter c).map some, w')) ∧
    (∃ s w', (w.liveAfter c).head? = some s ∧
      calls (m + 1) w = Except.ok ((w.liveAfter c).map some ++ [some s], w')) ∧
    ((∀ s ∈ w.lb.servers, Heap.alive w.heap s = true) →
      m = w.lb.servers.length ∧ w.liveAfter c = w.lb.servers.rotate (c + 1)) := by
  have hperm : (w.liveAfter c).Perm (w.lb.servers.filter (Heap.alive w.heap)) :=
    (List.rotate_perm _ _).filter _
  have hlen : (w.liveAfter c).length = m := by rw [hperm.length_eq, hm]
  have hne : w.liveAfter c ≠ [] := by
    intro h0
    rw [h0] at hlen
    simp at hlen
    omega
  obtain ⟨s, hs⟩ : ∃ s, (w.liveAfter c).head? = some s := by
    cases hL : w.liveAfter c with
    | nil => exact absurd hL hne
    | cons a l => exact ⟨a, rfl⟩
  obtain ⟨w1, h1⟩ := calls_cycle m w c hwf hcur hc hne
  obtain ⟨w2, h2⟩ := calls_cycle (m + 1) w c hwf hcur hc hne
  rw [← hlen, cycle_length] at h1
  rw [← hlen, cycle_length_succ, hs] at h2
  refine ⟨hlen, (List.nodup_rotate.mpr hnd).filter _, hperm, ⟨w1, by rw [← hlen]; exact h1⟩,
    ⟨s, w2, hs, by rw [← hlen]; exact h2⟩, ?_⟩
  intro hall
  have hfil : w.lb.servers.filter (Heap.alive w.heap) = w.lb.servers :=
    List.filter_eq_self.mpr hall
  refine ⟨by rw [← hm, hfil], ?_⟩
  rw [World.liveAfter]
  exact List.filter_eq_self.mpr (fun a ha => hall a (List.mem_rotate.mp ha))

/-- C2 at the pool `[A, B, C]` of `main.go`: freshly constructed it yields
`B, C, A, B`; with `B` then marked dead the following calls yield `C, A, C, A`. -/
theorem calls_round_robin_witness :
    NewLoadBalancer parseHost ["localhost:8081", "localhost:8082", "localhost:8083"]
      = Except.ok poolABC ∧
    calls 4 poolABC =
      Except.ok ([some 1, some 2, some 0, some 1], { poolABC with lb := ⟨[0, 1, 2], 1⟩ }) ∧
    run [Op.NextServer, Op.NextServer, Op.NextServer, Op.NextServer, Op.SetAlive 1 false,
        Op.NextServer, Op.NextServer, Op.NextServer, Op.NextServer] poolABC =
      Except.ok ([some 1, some 2, some 0, some 1, some 2, some 0, some 2, some 0], poolBDead) ∧
    poolABC.WF ∧ poolABC.lb.servers.Nodup ∧
    poolABC.lb.current = ((0 : Nat) : Int) ∧ 0 < poolABC.lb.servers.length ∧
    (poolABC.lb.servers.filter (Heap.alive poolABC.heap)).length = 3 ∧
    ((poolABC.liveAfter 0).length = 3 ∧ (poolABC.liveAfter 0).Nodup ∧
    (poolABC.liveAfter 0).Perm (poolABC.lb.servers.filter (Heap.alive poolABC.heap)) ∧
    (∃ w', calls 3 poolABC = Except.ok ((poolABC.liveAfter 0).map some, w')) ∧
    (∃ s w', (poolABC.liveAfter 0).head? = some s ∧
      calls (3 + 1) poolABC = Except.ok ((poolABC.liveAfter 0).map some ++ [some s], w')) ∧
    ((∀ s ∈ poolABC.lb.servers, Heap.alive poolABC.heap s = true) →
      3 = poolABC.lb.servers.length ∧
        poolABC.liveAfter 0 = poolABC.lb.servers.rotate (0 + 1))) :=
  ⟨by decide, by decide, by decide, by decide, by decide, rfl, by decide, by decide,
    calls_round_robin poolABC (by decide) (by decide) 0 3 rfl (by decide) (by decide)
      (by decide)⟩

/-! ## Liveness exclusion (C3) -/

/-- C3: let `pre` be any finite sequence of `SetAlive` and `NextServer` operations
applied to any initial state, and let a `NextServer` call follow it. A server that
the call returns is alive in the state in which the call is made; so a server marked
dead by a `SetAlive(false)` in `pre` that no later `SetAlive(true)` on the same
server follows is not the server returned. -/
theorem returned_server_alive (w0 w1 w2 : World) (pre : List Op) (rs : List (Option Ptr))
    (r : Option Ptr) (hrun : run pre w0 = Except.ok (rs, w1))
    (hcall : step w1 Op.NextServer = Except.ok (some r, w2)) :
    (∀ s, r = some s → Server.IsAlive w1.heap s = Except.ok true) ∧
    (∀ s a mid, pre = a ++ Op.SetAlive s false :: mid →
      (∀ op ∈ mid, op ≠ Op.SetAlive s true) → r ≠ some s) := by
  obtain ⟨r', lb', hnext, hr, _⟩ := step_NextServer_ok w1 w2 (some r) hcall
  have hrr : r' = r := (Option.some.inj hr).symm
  rw [hrr] at hnext
  have hfirst : ∀ s, r = some s → Server.IsAlive w1.heap s = Except.ok true := by
    intro s hs
    rw [hs] at hnext
    exact NextServer_returns_alive w1.heap w1.lb lb' s hnext
  refine ⟨hfirst, ?_⟩
  intro s a mid hpre hmid hrs
  rw [hpre] at hrun
  obtain ⟨_, wa, rs2, _, hrest, _⟩ := run_append_ok a _ w0 w1 rs hrun
  obtain ⟨r0, wb, _, hset, hmidrun, _⟩ := run_cons_ok _ mid wa w1 rs2 hrest
  obtain ⟨srv, hsrv, _, hwb⟩ := step_SetAlive_ok wa wb s false r0 hset
  have hlt : s < wa.heap.length := by
    rcases Nat.lt_or_ge s wa.heap.length with h | h
    · exact h
    · rw [List.getElem?_eq_none h] at hsrv; cases hsrv
  have hdead : Server.IsAlive wb.heap s = Except.ok false := by
    rw [hwb]
    simp [Server.IsAlive, hlt]
  have hstill := run_preserves (fun w => Server.IsAlive w.heap s = Except.ok false) mid
    (fun op hop w w' r1 hP hst => step_keeps_dead s op (hmid op hop) w w' r1 hP hst)
    wb w1 _ hmidrun hdead
  have halive := hfirst s hrs
  rw [hstill] at halive
  cases halive

/-- C3 at the pool `[A, B, C]`: after `NextServer`, `SetAlive(B, false)`, `NextServer`
the next call returns `A`, which is alive, and not `B`. -/
theorem returned_server_alive_witness :
    run [Op.NextServer, Op.SetAlive 1 false, Op.NextServer] poolABC =
      Except.ok ([some 1, some 2], poolBDeadAtC) ∧
    step poolBDeadAtC Op.NextServer = Except.ok (some (some 0), poolBDead) ∧
    ((∀ s, some 0 = some s → Server.IsAlive poolBDeadAtC.heap s = Except.ok true) ∧
    (∀ s a mid, [Op.NextServer, Op.SetAlive 1 false, Op.NextServer] = a ++ Op.SetAlive s false :: mid →
      (∀ op ∈ mid, op ≠ Op.SetAlive s true) → some 0 ≠ some s)) :=
  ⟨by decide, by decide,
    returned_server_alive poolABC poolBDeadAtC poolBDead
      [Op.NextServer, Op.SetAlive 1 false, Op.NextServer] [some 1, some 2] (some 0)
      (by decide) (by decide)⟩

/-! ## Selection: `nil` exactly on a pool without live server (C4) -/

/-- C5 fails on the code. On the non-empty pool `[A, B, C]` with every server dead
`NextServer` returns `nil`, `director` leaves the request as it is, and `ServeHTTP`
has the proxy hand that request to the transport: the caller gets the backend's
answer or, the round trip failing, status 502, and in no case the
`http.Error(w, "No servers available", 503)` of the empty-pool branch. -/
theorem ServeHTTP_all_dead_forwards :
    poolAllDead.lb.servers.length ≠ 0 ∧
    poolAllDead.lb.NextServer poolAllDead.heap = Except.ok (none, poolAllDead.lb) ∧
    poolAllDead.lb.director poolAllDead.heap getRoot = Except.ok (getRoot, poolAllDead.lb) ∧
    (∀ transport : Transport,
      poolAllDead.lb.ServeHTTP transport poolAllDead.heap getRoot =
        Except.ok ((match transport getRoot with
                    | none => Response.BadGateway
                    | some res => Response.Copied res, some getRoot), poolAllDead.lb)) ∧
    poolAllDead.lb.ServeHTTP unreachable poolAllDead.heap getRoot =
      Except.ok ((Response.BadGateway, some getRoot), poolAllDead.lb) ∧
    Response.BadGateway.StatusCode = 502 := by
  refine ⟨by decide, by decide, by decide, ?_, by decide, by decide⟩
  intro transport
  have hd : poolAllDead.lb.director poolAllDead.heap getRoot =
      Except.ok (getRoot, poolAllDead.lb) := by decide
  have hN : ¬ poolAllDead.lb.servers.length = 0 := by decide
  simp only [LoadBalancer.ServeHTTP, hN, if_false, ReverseProxy.ServeHTTP, hd]
  cases transport getRoot <;> rfl

/-! ## The empty pool (C6) -/

/-- C6: a balancer constructed from the empty list of addresses answers every request
with `http.Error(w, "No servers available", 503)`; neither `NextServer` nor the proxy
is called: no request reaches the transport and the balancer, cursor included, is
the one before the request. -/
theorem ServeHTTP_empty_pool (parse : String → Option URL) (w0 : World)
    (hnew : NewLoadBalancer parse [] = Except.ok w0) (transport : Transport) (r : Request) :
    w0.lb.ServeHTTP transport w0.heap r =
      Except.ok ((Response.Error "No servers available" StatusServiceUnavailable, none), w0.lb) ∧
    (Response.Error "No servers available" StatusServiceUnavailable).StatusCode = 503 := by
  have hlen := (NewLoadBalancer_ok parse [] w0 hnew).2.1
  simp only [List.length_nil] at hlen
  exact ⟨by simp only [LoadBalancer.ServeHTTP, hlen, if_true], rfl⟩

/-- C6 at the request `GET /`. -/
theorem ServeHTTP_empty_pool_witness :
    NewLoadBalancer parseHost [] = Except.ok ⟨[], ⟨[], 0⟩⟩ ∧
    (LoadBalancer.ServeHTTP unreachable [] ⟨[], 0⟩ getRoot =
      Except.ok ((Response.Error "No servers available" StatusServiceUnavailable, none),
        ⟨[], 0⟩) ∧
    (Response.Error "No servers available" StatusServiceUnavailable).StatusCode = 503) :=
  ⟨by decide, ServeHTTP_empty_pool parseHost ⟨[], ⟨[], 0⟩⟩ (by decide) unreachable getRoot⟩

/-! ## The rewrite of the request (C7) -/

/-- C7: when `NextServer` returns a server `s`, `director` sets the request's URL
scheme to the scheme of `s`, the request's URL host and its `Host` field to the host
of `s`, and leaves the method, path, query, headers and body as they were. -/
theorem director_rewrites (h : Heap) (lb lb' : LoadBalancer) (req : Request) (s : Ptr)
    (hcall : lb.NextServer h = Except.ok (some s, lb')) :
    ∃ srv req', h[s]? = some srv ∧ lb.director h req = Except.ok (req', lb') ∧
      req'.URL.Scheme = srv.URL.Scheme ∧ req'.URL.Host = srv.URL.Host ∧
      req'.Host = srv.URL.Host ∧
      req'.Method = req.Method ∧ req'.URL.Path = req.URL.Path ∧
      req'.URL.RawQuery = req.URL.RawQuery ∧ req'.Header = req.Header ∧
      req'.Body = req.Body := by
  have hal := NextServer_returns_alive h lb lb' s hcall
  cases hs : h[s]? with
  | none => simp [Server.IsAlive, hs] at hal
  | some srv =>
    refine ⟨srv, { req with
        URL := { req.URL with Scheme := srv.URL.Scheme, Host := srv.URL.Host },
        Host := srv.URL.Host }, rfl, ?_, rfl, rfl, rfl, rfl, rfl, rfl, rfl, rfl⟩
    simp only [LoadBalancer.director, hcall, hs]

/-- C7 at the pool `[A, B, C]` with `B` dead and the request `GET /`: the target
becomes `http://localhost:8083`. -/
theorem director_rewrites_witness :
    poolBDead.lb.NextServer poolBDead.heap = Except.ok (some 2, poolBDeadAtC.lb) ∧
    poolBDead.lb.director poolBDead.heap getRoot =
      Except.ok ({ getRoot with
        URL := { Scheme := "http", Host := "localhost:8083", Path := "/", RawQuery := "" },
        Host := "localhost:8083" }, poolBDeadAtC.lb) ∧
    ∃ srv req', poolBDead.heap[2]? = some srv ∧
      poolBDead.lb.director poolBDead.heap getRoot = Except.ok (req', poolBDeadAtC.lb) ∧
      req'.URL.Scheme = srv.URL.Scheme ∧ req'.URL.Host = srv.URL.Host ∧
      req'.Host = srv.URL.Host ∧
      req'.Method = getRoot.Method ∧ req'.URL.Path = getRoot.URL.Path ∧
      req'.URL.RawQuery = getRoot.URL.RawQuery ∧ req'.Header = getRoot.Header ∧
      req'.Body = getRoot.Body :=
  ⟨by decide, by decide,
    director_rewrites poolBDead.heap poolBDead.lb poolBDeadAtC.lb getRoot 2 (by decide)⟩

/-! ## The cursor invariant (C9) -/

/-- C9, as stated, fails: constructed from the empty list of addresses, the balancer
has an empty pool and cursor 0, and `0 ≤ cursor < len(pool)` does not hold. -/
theorem NewLoadBalancer_empty_cursor :
    ∃ w0, NewLoadBalancer parseHost [] = Except.ok w0 ∧
      ¬ (0 ≤ w0.lb.current ∧ w0.lb.current < (w0.lb.servers.length : Int)) :=
  ⟨⟨[], ⟨[], 0⟩⟩, by decide, by decide⟩

/-- C9, amended: in every state reached from `NewLoadBalancer` by a finite sequence
of `NextServer` and `SetAlive` calls the pool is the one fixed at construction, with
one entry per address, and the cursor is non-negative; for a non-empty list of
addresses it satisfies `cursor < len(pool)`, for the empty list it is 0. -/
theorem cursor_in_range (parse : String → Option URL) (serverURLs : List String)
    (w0 w : World) (ops : List Op) (rs : List (Option Ptr))
    (hlen : (serverURLs.length : Int) ≤ maxInt)
    (hnew : NewLoadBalancer parse serverURLs = Except.ok w0)
    (hrun : run ops w0 = Except.ok (rs, w)) :
    w.lb.servers = w0.lb.servers ∧ w.lb.servers.length = serverURLs.length ∧
    0 ≤ w.lb.current ∧
    (serverURLs ≠ [] → w.lb.current < (w.lb.servers.length : Int)) ∧
    (serverURLs = [] → w.lb.current = 0) := by
  obtain ⟨hc0, hl0, hp0⟩ := NewLoadBalancer_ok parse serverURLs w0 hnew
  have hinv0 : w0.lb.servers = w0.lb.servers ∧ w0.WF ∧ w0.CursorOK := by
    refine ⟨rfl, ⟨by rw [hl0]; exact hlen, hp0⟩, ?_⟩
    simp only [World.CursorOK, hc0, le_refl, true_and]
    by_cases hN : w0.lb.servers.length = 0
    · exact Or.inr ⟨hN, trivial⟩
    · exact Or.inl (by omega)
  obtain ⟨hS, _, h0, hin⟩ := run_preserves
    (fun w => w.lb.servers = w0.lb.servers ∧ w.WF ∧ w.CursorOK) ops
    (fun op _ w w' r hP hst => step_invariant w0.lb.servers op w w' r hP hst) w0 w rs hrun hinv0
  have hlen' : w.lb.servers.length = serverURLs.length := by rw [hS, hl0]
  refine ⟨hS, hlen', h0, ?_, ?_⟩
  · intro hne
    have : serverURLs.length ≠ 0 := fun h => hne (List.length_eq_zero.mp h)
    rcases hin with hin | hin
    · exact hin
    · omega
  · intro he
    have : serverURLs.length = 0 := by rw [he]; rfl
    rcases hin with hin | hin
    · omega
    · exact hin.2

/-- C9 (amended) at the pool `[A, B, C]` of `main.go` after `NextServer`,
`SetAlive(B, false)`, `NextServer`: the cursor is 2. -/
theorem cursor_in_range_witness :
    ((["localhost:8081", "localhost:8082", "localhost:8083"].length : Nat) : Int) ≤ maxInt ∧
    NewLoadBalancer parseHost ["localhost:8081", "localhost:8082", "localhost:8083"]
      = Except.ok poolABC ∧
    run [Op.NextServer, Op.SetAlive 1 false, Op.NextServer] poolABC =
      Except.ok ([some 1, some 2], poolBDeadAtC) ∧
    (poolBDeadAtC.lb.servers = poolABC.lb.servers ∧
    poolBDeadAtC.lb.servers.length =
      ["localhost:8081", "localhost:8082", "localhost:8083"].length ∧
    0 ≤ poolBDeadAtC.lb.current ∧
    (["localhost:8081", "localhost:8082", "localhost:8083"] ≠ [] →
      poolBDeadAtC.lb.current < (poolBDeadAtC.lb.servers.length : Int)) ∧
    (["localhost:8081", "localhost:8082", "localhost:8083"] = [] →
      poolBDeadAtC.lb.current = 0)) :=
  ⟨by decide, by decide, by decide,
    cursor_in_range parseHost ["localhost:8081", "localhost:8082", "localhost:8083"]
      poolABC poolBDeadAtC [Op.NextServer, Op.SetAlive 1 false, Op.NextServer]
      [some 1, some 2] (by decide) (by decide) (by decide)⟩

/-! ## Selection: the cursor after a fruitless scan (C10) -/

/-- C10, as stated, fails: on the all-dead pool `[A, B, C]` with the cursor on `B`
the call returns `nil` and the cursor is on `B` again, the value it had before. -/
theorem NextServer_all_dead_cursor_same :
    poolAllDead.WF ∧ 0 ≤ poolAllDead.lb.current ∧
    poolAllDead.lb.current < (poolAllDead.lb.servers.length : Int) ∧
    (∀ i, i < poolAllDead.lb.servers.length → poolAllDead.aliveAt i = false) ∧
    ∃ lb', poolAllDead.lb.NextServer poolAllDead.heap = Except.ok (none, lb') ∧
      lb'.current = poolAllDead.lb.current :=
  ⟨by decide, by decide, by decide, by decide, poolAllDead.lb, by decide, rfl⟩

/-- C10, amended: on a non-empty pool with an in-range cursor `c` in which every
server is dead, `NextServer` returns `nil` and leaves the cursor at the final
position it scanned, `(c + N) mod N`, which is the position `c` it held before the
call: the balancer is unchanged. -/
theorem NextServer_all_dead_cursor (w : World) (hwf : w.WF) (c : Nat)
    (hN : 1 ≤ w.lb.servers.length) (hcur : w.lb.current = (c : Int))
    (hc : c < w.lb.servers.length)
    (hdead : ∀ i, i < w.lb.servers.length → w.aliveAt i = false) :
    w.lb.NextServer w.heap =
      Except.ok (none,
        { w.lb with current := (((c + w.lb.servers.length) % w.lb.servers.length : Nat) : Int) }) ∧
    (c + w.lb.servers.length) % w.lb.servers.length = c ∧
    w.lb.NextServer w.heap = Except.ok (none, w.lb) := by
  have hcm : (c : Int) < maxInt := by have := hwf.1; omega
  have hne : w.lb.servers.length ≠ 0 := by omega
  have hcall := NextServer_all_dead w hwf c hcur hcm hdead
  simp only [hne, if_false] at hcall
  have hmod : (c + w.lb.servers.length) % w.lb.servers.length = c := by
    rw [Nat.add_mod_right, Nat.mod_eq_of_lt hc]
  refine ⟨hcall, hmod, ?_⟩
  rw [hcall, hmod, ← hcur]

/-- C10 (amended) at the all-dead pool `[A, B, C]` with the cursor on `B`. -/
theorem NextServer_all_dead_cursor_witness :
    poolAllDead.WF ∧ 1 ≤ poolAllDead.lb.servers.length ∧
    poolAllDead.lb.current = ((1 : Nat) : Int) ∧ 1 < poolAllDead.lb.servers.length ∧
    (∀ i, i < poolAllDead.lb.servers.length → poolAllDead.aliveAt i = false) ∧
    (poolAllDead.lb.NextServer poolAllDead.heap =
      Except.ok (none,
        { poolAllDead.lb with
          current := (((1 + poolAllDead.lb.servers.length) % poolAllDead.lb.servers.length : Nat) : Int) }) ∧
    (1 + poolAllDead.lb.servers.length) % poolAllDead.lb.servers.length = 1 ∧
    poolAllDead.lb.NextServer poolAllDead.heap = Except.ok (none, poolAllDead.lb)) :=
  ⟨by decide, by decide, rfl, by decide, by decide,
    NextServer_all_dead_cursor poolAllDead (by decide) 1 (by decide) rfl (by decide) (by decide)⟩

end Balancer
